import Mathlib

/-!
Verification of the database-access middleware layer of the
aipan-netdisk-search repository: the priority-aware ConcurrencyController
(src/lib/concurrency.ts), the hand-rolled Prisma connection pool
(src/lib/prisma-pool.ts), the layered QueryCache (src/lib/cache.ts) and the
on-disk PersistenceManager (src/lib/persistence.ts).

Each TypeScript class is shallowly embedded as a Lean state type plus pure
transition functions translated line-by-line from the source; timers and the
event loop are replaced by explicit `now : Nat` clock parameters, and the
single-threaded cooperative execution model of the code is reflected by
treating each method body as one atomic transition.
-/

namespace Concurrency

/-- A queued task of `ConcurrencyController` (src/lib/concurrency.ts,
`PrioritizedTask`).  The `seq` field is the arrival number we use to identify
tasks; the source stores a closure instead, which carries no observable data
beyond its identity. -/
structure PTask where
  priority : Nat
  seq : Nat
deriving DecidableEq, Repr

/-- State of `ConcurrencyController`: the `running` counter and the priority
queue `queue` (front of the list = front of the array). -/
structure CCState where
  running : Nat
  queue : List PTask
deriving DecidableEq, Repr

/-- Initial controller state: `running = 0`, empty queue. -/
def ccInit : CCState := { running := 0, queue := [] }

/-- Insertion of a task into the queue, embedding
`const insertIndex = this.queue.findIndex(item => item.priority < priority)`
followed by `push` (when `insertIndex === -1`) or `splice(insertIndex, 0, t)`:
the task is placed immediately before the first item of strictly lower
priority, or appended when there is none. -/
def insertByPriority (t : PTask) : List PTask → List PTask
  | [] => [t]
  | x :: xs => if x.priority < t.priority then t :: x :: xs else x :: insertByPriority t xs

/-- `ConcurrencyController.add(task, priority)`: when `running >= maxConcurrent`
the task is enqueued by priority; otherwise `execute` runs it at once,
incrementing `running` (the check and the increment are in one synchronous
segment of the source, hence one atomic transition here). -/
def ccAdd (maxConcurrent : Nat) (t : PTask) (s : CCState) : CCState :=
  if s.running ≥ maxConcurrent then
    { s with queue := insertByPriority t s.queue }
  else
    { s with running := s.running + 1 }

/-- Completion of one running task: the `finally` block of `execute` decrements
`running` and calls `processQueue`, which dispatches the queue head when the
queue is non-empty and `running < maxConcurrent` (dispatching re-enters
`execute`, incrementing `running`).  A completion can only happen when a task
is running, so the transition is the identity at `running = 0`. -/
def ccComplete (maxConcurrent : Nat) (s : CCState) : CCState :=
  if s.running = 0 then s
  else if s.queue ≠ [] ∧ s.running - 1 < maxConcurrent then
    { running := s.running - 1 + 1, queue := s.queue.tail }
  else
    { s with running := s.running - 1 }

/-- `ConcurrencyController.getStats()`: `{running, queued, maxConcurrent}`. -/
def ccGetStats (maxConcurrent : Nat) (s : CCState) : Nat × Nat × Nat :=
  (s.running, s.queue.length, maxConcurrent)

/-- An event of a controller history: a task arrives (`add`) or one of the
running tasks finishes (`complete`). -/
inductive CCOp where
  | add (t : PTask)
  | complete
deriving DecidableEq, Repr

/-- Apply one event to the controller state. -/
def ccStep (maxConcurrent : Nat) (s : CCState) : CCOp → CCState
  | .add t => ccAdd maxConcurrent t s
  | .complete => ccComplete maxConcurrent s

/-- Run a sequence of events from a state. -/
def ccRun (maxConcurrent : Nat) (s : CCState) (ops : List CCOp) : CCState :=
  ops.foldl (ccStep maxConcurrent) s
/-- Strict dispatch order on queued tasks: earlier means higher priority, or
equal priority and earlier arrival. -/
def qBefore (a b : PTask) : Prop :=
  b.priority < a.priority ∨ (a.priority = b.priority ∧ a.seq < b.seq)

/-- A queue ordered by descending priority, FIFO within each priority band. -/
def QSorted (q : List PTask) : Prop := q.Pairwise qBefore

end Concurrency

namespace PrismaPool

/-- Configuration of `PrismaPool` (src/lib/prisma-pool.ts, `PoolOptions`),
with the fields the pool logic reads.  `retryInterval` is accepted by the
source but never used by it, so it is omitted. -/
structure PoolOptions where
  min : Nat
  max : Nat
  idleTimeout : Nat
  acquireTimeout : Nat
  leakDetectionThreshold : Nat
deriving DecidableEq, Repr

/-- One entry of `this.clients`: the per-client record `{client, lastActive,
acquiredAt?, stackTrace?}`.  Client object identity is modelled by the
numeric `id`; the diagnostic stack trace carries no behaviour and is
dropped. -/
structure ClientInfo where
  id : Nat
  lastActive : Nat
  acquiredAt : Option Nat
deriving DecidableEq, Repr

/-- One entry of `this.waitingQueue` (`QueueItem`): the continuation identity
`wid` and the enqueue `timestamp`. -/
structure Waiter where
  wid : Nat
  timestamp : Nat
deriving DecidableEq, Repr

/-- The mutable fields of `PrismaPool`: the client records, the active and
idle id sets (JS `Set` iterates in insertion order, so both are lists without
duplicates), the waiter queue, fresh-id counters for clients and waiters, and
the `leakedConnections` statistic. -/
structure PoolState where
  clients : List ClientInfo
  activeClients : List Nat
  idleClients : List Nat
  waitingQueue : List Waiter
  nextId : Nat
  nextWid : Nat
  leakedConnections : Nat
deriving DecidableEq, Repr

/-- Events the pool emits (`connection-leak`, `connection-closed`,
`acquire-timeout`, `error`). -/
inductive PoolEvent where
  | connectionLeak (id : Nat) (timeHeld : Nat)
  | connectionClosed (id : Nat)
  | acquireTimedOut (wid : Nat) (waitTime : Nat)
  | errorEvent (operation : String)
deriving DecidableEq, Repr

/-- `Set.add`: appends the element unless already present. -/
def addToSet (l : List Nat) (x : Nat) : List Nat :=
  if x ∈ l then l else l ++ [x]

/-- Mutation performed on the matched `clientInfo` in the idle branch of
`acquire`: `acquiredAt = Date.now(); lastActive = Date.now()`. -/
def touchAcquired (now : Nat) (id : Nat) (cs : List ClientInfo) : List ClientInfo :=
  cs.map fun c =>
    if c.id = id then { c with acquiredAt := some now, lastActive := now } else c

/-- Mutation performed by the stored waiter `resolve` wrapper:
`clientInfo.acquiredAt = Date.now()` (and the stack trace; `lastActive` is
not updated there). -/
def setAcquiredAt (now : Nat) (id : Nat) (cs : List ClientInfo) : List ClientInfo :=
  cs.map fun c => if c.id = id then { c with acquiredAt := some now } else c

/-- Outcome of one `acquire()` call: a client handed out, a waiter enqueued,
or the `Failed to create new client` rejection. -/
inductive AcquireResult where
  | handed (id : Nat)
  | enqueued (wid : Nat)
  | createFailed
deriving DecidableEq, Repr

/-- `PrismaPool.acquire()` as one whole-method transition: (1) hand out the
first idle client; (2) else, when `clients.length < max`, create a new client
(`connectOk` is the outcome of the underlying `$connect`) and hand it out;
(3) else append a waiter to `waitingQueue`.  This transition is faithful only
for non-overlapping calls: in the source, branch (2) suspends at
`await this.createClient()` between the `clients.length < max` check and the
`clients.push`, so overlapping acquires interleave there.  The event-loop
semantics with that suspension point made explicit is `stepI` below; branches
(1) and (3) are synchronous and single steps in both. -/
def acquire (o : PoolOptions) (now : Nat) (connectOk : Bool) (s : PoolState) :
    PoolState × AcquireResult :=
  match s.idleClients with
  | id :: rest =>
      ({ s with clients := touchAcquired now id s.clients,
                idleClients := rest,
                activeClients := addToSet s.activeClients id }, .handed id)
  | [] =>
      if s.clients.length < o.max then
        if connectOk then
          ({ s with
              clients := s.clients ++
                [{ id := s.nextId, lastActive := now, acquiredAt := some now }],
              activeClients := addToSet s.activeClients s.nextId,
              nextId := s.nextId + 1 }, .handed s.nextId)
        else (s, .createFailed)
      else
        ({ s with
            waitingQueue := s.waitingQueue ++ [{ wid := s.nextWid, timestamp := now }],
            nextWid := s.nextWid + 1 }, .enqueued s.nextWid)

/-- `PrismaPool.release(client)`: when the client is active it is removed from
the active set; with a non-empty waiter queue it is re-added to the active set
and handed to the shifted (oldest) waiter, whose id is returned; otherwise it
is added to the idle set.  A client that is not active is ignored. -/
def release (now : Nat) (id : Nat) (s : PoolState) : PoolState × Option Nat :=
  if id ∈ s.activeClients then
    match s.waitingQueue with
    | w :: ws =>
        ({ s with activeClients := addToSet (s.activeClients.erase id) id,
                  waitingQueue := ws,
                  clients := setAcquiredAt now id s.clients }, some w.wid)
    | [] =>
        ({ s with activeClients := s.activeClients.erase id,
                  idleClients := addToSet s.idleClients id }, none)
  else (s, none)

/-- Leak-detection pass of `maintenance`: one `connection-leak` event per
client record whose `acquiredAt` is set and more than
`leakDetectionThreshold` in the past.  The source checks only
`clientInfo.acquiredAt && now - acquiredAt > threshold`; it does not consult
the active set. -/
def leakPass (o : PoolOptions) (now : Nat) (cs : List ClientInfo) : List PoolEvent :=
  cs.filterMap fun c =>
    match c.acquiredAt with
    | some t =>
        if now - t > o.leakDetectionThreshold then
          some (.connectionLeak c.id (now - t))
        else none
    | none => none

/-- Condition under which the idle-reclamation loop of `maintenance` closes
the idle client `id`: its record exists, it has been idle past `idleTimeout`,
and the pool currently holds more than `min` clients (re-checked on every
loop iteration, since the removal mutates `this.clients`). -/
def sweepCond (o : PoolOptions) (now : Nat) (s : PoolState) (id : Nat) : Bool :=
  match s.clients.find? (fun c => c.id = id) with
  | some ci =>
      decide (now - ci.lastActive > o.idleTimeout) &&
      decide (s.clients.length > o.min)
  | none => false

/-- Idle-reclamation loop of `maintenance`: iterate over a snapshot of the
idle set; a client satisfying `sweepCond` is disconnected and removed from
the idle set and the client list. -/
def idleSweep (o : PoolOptions) (now : Nat) :
    List Nat → PoolState → PoolState × List PoolEvent
  | [], s => (s, [])
  | id :: rest, s =>
      if sweepCond o now s id then
        let res := idleSweep o now rest
          { s with idleClients := s.idleClients.erase id,
                   clients := s.clients.filter (fun c => c.id ≠ id) }
        (res.1, .connectionClosed id :: res.2)
      else idleSweep o now rest s

/-- Waiter-timeout loop of `maintenance`: shift and reject waiters from the
front while the head has waited more than `acquireTimeout`. -/
def expireWaiters (o : PoolOptions) (now : Nat) :
    List Waiter → List Waiter × List PoolEvent
  | [] => ([], [])
  | w :: ws =>
      if now - w.timestamp > o.acquireTimeout then
        let res := expireWaiters o now ws
        (res.1, .acquireTimedOut w.wid (now - w.timestamp) :: res.2)
      else (w :: ws, [])

/-- `PrismaPool.maintenance()`: leak detection (incrementing
`leakedConnections` once per flagged record), idle reclamation over a
snapshot of the idle set, then waiter timeout. -/
def maintenance (o : PoolOptions) (now : Nat) (s : PoolState) :
    PoolState × List PoolEvent :=
  let leaks := leakPass o now s.clients
  let s1 := { s with leakedConnections := s.leakedConnections + leaks.length }
  let swept := idleSweep o now s1.idleClients s1
  let expired := expireWaiters o now swept.1.waitingQueue
  ({ swept.1 with waitingQueue := expired.1 }, leaks ++ swept.2 ++ expired.2)

/-- `PrismaPool.createClient()`: a successful `$connect` yields a fresh client
record; a failed connect is caught inside the method, emits an `error` event,
and yields `null` — the method itself never rejects. -/
def createClient (now : Nat) (ok : Bool) (nid : Nat) :
    Option ClientInfo × List PoolEvent :=
  if ok then (some { id := nid, lastActive := now, acquiredAt := none }, [])
  else (none, [.errorEvent "createClient"])

/-- `PrismaPool.initializeMinConnections` (shortened name): the constructor
warm-up creates `min` clients via `createClient` and keeps the non-null
results as idle clients.  Because `createClient` never rejects, the
`Promise.all` always resolves and the `catch`/rethrow in the source is
unreachable, so the warm-up is a total function; the constructor moreover
invokes it as `void this.initializeMinConnections()`, without awaiting it. -/
def initMinConnections (o : PoolOptions) (connectOk : Nat → Bool) (now : Nat) :
    PoolState × List PoolEvent :=
  let results := (List.range o.min).map fun i => createClient now (connectOk i) i
  let created := results.filterMap Prod.fst
  ({ clients := created,
     activeClients := [],
     idleClients := created.map ClientInfo.id,
     waitingQueue := [],
     nextId := o.min,
     nextWid := 0,
     leakedConnections := 0 }, (results.map Prod.snd).flatten)

/-- The pool state right after a fully successful warm-up: `min` idle
clients. -/
def postWarmupState (o : PoolOptions) : PoolState :=
  (initMinConnections o (fun _ => true) 0).1

/-- One externally driven pool transition: an `acquire()` call (with the
connect outcome it would observe), a `release(client)` call, or a
`maintenance` timer tick, each at an explicit clock value. -/
inductive PoolOp where
  | acq (now : Nat) (connectOk : Bool)
  | rel (now : Nat) (id : Nat)
  | maint (now : Nat)
deriving DecidableEq, Repr

/-- Apply one pool transition (state part). -/
def step (o : PoolOptions) (s : PoolState) : PoolOp → PoolState
  | .acq now ok => (acquire o now ok s).1
  | .rel now id => (release now id s).1
  | .maint now => (maintenance o now s).1

/-- Run a sequence of pool transitions. -/
def run (o : PoolOptions) (s : PoolState) (ops : List PoolOp) : PoolState :=
  ops.foldl (step o) s

/-- Apply one pool transition, collecting the events it emits. -/
def stepEv (o : PoolOptions) (s : PoolState) (op : PoolOp) :
    PoolState × List PoolEvent :=
  match op with
  | .acq now ok =>
      let r := acquire o now ok s
      (r.1, if r.2 = .createFailed
        then [.errorEvent "createClient", .errorEvent "acquire"] else [])
  | .rel now id => ((release now id s).1, [])
  | .maint now => maintenance o now s

/-- Run a sequence of pool transitions, concatenating all emitted events. -/
def runEv (o : PoolOptions) (s : PoolState) : List PoolOp → PoolState × List PoolEvent
  | [] => (s, [])
  | op :: ops =>
      let r := stepEv o s op
      let rest := runEv o r.1 ops
      (rest.1, r.2 ++ rest.2)

/-- Well-formedness of a pool state: the active and idle id sets are genuine
sets, disjoint from each other, and contain only ids of existing client
records; client ids are distinct and below the fresh-id counter; and the
client count stays between `min` and `max`. -/
structure WF (o : PoolOptions) (s : PoolState) : Prop where
  activeNodup : s.activeClients.Nodup
  idleNodup : s.idleClients.Nodup
  cidsNodup : (s.clients.map ClientInfo.id).Nodup
  disj : ∀ x ∈ s.activeClients, x ∉ s.idleClients
  activeSub : ∀ x ∈ s.activeClients, x ∈ s.clients.map ClientInfo.id
  idleSub : ∀ x ∈ s.idleClients, x ∈ s.clients.map ClientInfo.id
  idsLt : ∀ x ∈ s.clients.map ClientInfo.id, x < s.nextId
  lenLe : s.clients.length ≤ o.max
  minLe : o.min ≤ s.clients.length

/-- Pool state under the event-loop semantics: the pool fields plus the
number of `acquire()` calls currently suspended at
`await this.createClient()`.  The source records nothing for an in-flight
creation — in particular `clients.length` does not count it — which is what
lets overlapping acquires overshoot `max`. -/
structure PoolStateI where
  base : PoolState
  pendingCreates : Nat
deriving DecidableEq, Repr

/-- One event-loop step of the pool under cooperative interleaving.
`release` and `maintenance` have no internal suspension affecting the shared
sets, so they stay single steps; `acquire` is split at its one suspension
point: `call` runs the synchronous prefix (idle hand-out, or the
`clients.length < max` check that suspends into a pending creation, or
waiter enqueue), and `resume` runs the continuation of one suspended
creation (push the connected client and hand it out — with no re-check of
the bound, as in the source — or propagate the
`Failed to create new client` rejection). -/
inductive PoolOpI where
  | call (now : Nat)
  | resume (now : Nat) (connectOk : Bool)
  | rel (now : Nat) (id : Nat)
  | maint (now : Nat)
deriving DecidableEq, Repr

/-- Apply one event-loop step. -/
def stepI (o : PoolOptions) (s : PoolStateI) : PoolOpI → PoolStateI
  | .call now =>
      match s.base.idleClients with
      | _ :: _ => { s with base := (acquire o now true s.base).1 }
      | [] =>
          if s.base.clients.length < o.max then
            { s with pendingCreates := s.pendingCreates + 1 }
          else
            { s with base := (acquire o now true s.base).1 }
  | .resume now connectOk =>
      if s.pendingCreates = 0 then s
      else if connectOk then
        { base := { s.base with
            clients := s.base.clients ++
              [{ id := s.base.nextId, lastActive := now, acquiredAt := some now }],
            activeClients := addToSet s.base.activeClients s.base.nextId,
            nextId := s.base.nextId + 1 },
          pendingCreates := s.pendingCreates - 1 }
      else { s with pendingCreates := s.pendingCreates - 1 }
  | .rel now id => { s with base := (release now id s.base).1 }
  | .maint now => { s with base := (maintenance o now s.base).1 }

/-- Run a sequence of event-loop steps. -/
def runI (o : PoolOptions) (s : PoolStateI) (ops : List PoolOpI) : PoolStateI :=
  ops.foldl (stepI o) s

/-- Expansion of whole-method transitions into event-loop steps with each
acquire's suspension resumed immediately — i.e. non-overlapping calls. -/
def serialize : List PoolOp → List PoolOpI
  | [] => []
  | .acq now ok :: rest => .call now :: .resume now ok :: serialize rest
  | .rel now id :: rest => .rel now id :: serialize rest
  | .maint now :: rest => .maint now :: serialize rest

/-- The fragment of well-formedness that survives arbitrary interleavings of
acquire's suspension: distinct client ids below the fresh-id counter, and at
least `min` clients.  (The `≤ max` bound is deliberately absent: overlapping
creations violate it.) -/
structure MinInv (o : PoolOptions) (s : PoolState) : Prop where
  cidsNodup : (s.clients.map ClientInfo.id).Nodup
  idsLt : ∀ x ∈ s.clients.map ClientInfo.id, x < s.nextId
  minLe : o.min ≤ s.clients.length

end PrismaPool

namespace Persistence

/-- The standard base64 alphabet used by `Buffer.toString('base64')`. -/
def b64Alphabet : List Char :=
  "ABCDEFGHIJKLMNOPQRSTUVWXYZabcdefghijklmnopqrstuvwxyz0123456789+/".toList

/-- Character for a 6-bit group. -/
def b64Char (n : Nat) : Char := b64Alphabet.getD n 'A'

/-- Base64 of a byte list, processed three bytes (four output characters) at a
time, with `=` padding. -/
def b64Chunks : List Nat → List Char
  | [] => []
  | [b1] => [b64Char (b1 / 4), b64Char (b1 % 4 * 16), '=', '=']
  | [b1, b2] =>
      [b64Char (b1 / 4), b64Char (b1 % 4 * 16 + b2 / 16), b64Char (b2 % 16 * 4), '=']
  | b1 :: b2 :: b3 :: rest =>
      b64Char (b1 / 4) :: b64Char (b1 % 4 * 16 + b2 / 16) ::
        b64Char (b2 % 16 * 4 + b3 / 64) :: b64Char (b3 % 64) :: b64Chunks rest

/-- `Buffer.from(key).toString('base64')`.  Bytes are the UTF-8 encoding of
the key; for ASCII keys (the only ones the theorems below use) these are the
character codes. -/
def base64Encode (key : String) : List Char :=
  b64Chunks (key.toList.map Char.toNat)

/-- The `.replace(/[/+=]/g, '_')` step of `getFilePath`. -/
def safeChar (c : Char) : Char :=
  if c = '/' ∨ c = '+' ∨ c = '=' then '_' else c

/-- The filesystem-safe encoding of a cache key used for its filename. -/
def safeKey (key : String) : String :=
  String.mk ((base64Encode key).map safeChar)

/-- `PersistenceManager.getFilePath`: `path.join(directory, safeKey + '.json')`. -/
def getFilePath (directory key : String) : String :=
  directory ++ "/" ++ safeKey key ++ ".json"

/-- Configuration of `PersistenceManager` (defaults 10 MiB / 100 files). -/
structure PMOptions where
  directory : String
  maxFileSize : Nat
  maxFiles : Nat
deriving DecidableEq, Repr

/-- An on-disk cache entry: the serialized `{key, value, timestamp}` object.
The write time doubles as the file's mtime. -/
structure PFile (V : Type) where
  key : String
  value : V
  timestamp : Nat
deriving DecidableEq, Repr

/-- The persistence directory: an association of file paths to files. -/
abbrev FS (V : Type) : Type := List (String × PFile V)

/-- Write (create or overwrite) the file at a path. -/
def fsWrite {V : Type} (fs : FS V) (p : String) (f : PFile V) : FS V :=
  match fs with
  | [] => [(p, f)]
  | x :: xs => if x.1 = p then (p, f) :: xs else x :: fsWrite xs p f

/-- Read the file at a path, when present. -/
def fsRead {V : Type} (fs : FS V) (p : String) : Option (PFile V) :=
  (fs.find? (fun e => e.1 = p)).map Prod.snd

/-- Insertion sort by ascending modification time, as used by `cleanup` to
find the oldest files. -/
def insertByTime {V : Type} (e : String × PFile V) :
    List (String × PFile V) → List (String × PFile V)
  | [] => [e]
  | x :: xs =>
      if e.2.timestamp ≤ x.2.timestamp then e :: x :: xs else x :: insertByTime e xs

/-- Sort the directory listing by ascending modification time. -/
def sortByTime {V : Type} : List (String × PFile V) → List (String × PFile V)
  | [] => []
  | x :: xs => insertByTime x (sortByTime xs)

/-- `PersistenceManager.cleanup`: when the directory holds more than
`maxFiles` files, delete the oldest-by-mtime files down to the cap. -/
def cleanup {V : Type} (o : PMOptions) (fs : FS V) : FS V :=
  if fs.length ≤ o.maxFiles then fs
  else
    (fs.filter (fun e =>
      e.1 ∉ ((sortByTime fs).take (fs.length - o.maxFiles)).map Prod.fst))

/-- `PersistenceManager.save`: serialize `{key, value, timestamp}`, reject
with the `exceeds maximum file size` error when the serialized size exceeds
`maxFileSize`, run `cleanup`, then write the file named by `getFilePath`.
The serialized byte size of `JSON.stringify({key, value, timestamp})` is
abstracted as the `size` parameter. -/
def save {V : Type} (o : PMOptions) (size : String → V → Nat) (now : Nat)
    (key : String) (v : V) (fs : FS V) : Except String (FS V) :=
  if size key v > o.maxFileSize then
    .error "EntryTooLarge"
  else
    .ok (fsWrite (cleanup o fs) (getFilePath o.directory key) ⟨key, v, now⟩)

/-- `PersistenceManager.load`: read and parse the file named by
`getFilePath`, returning its `value`; a missing file (ENOENT) is the `null`
sentinel, not an error. -/
def load {V : Type} (o : PMOptions) (fs : FS V) (key : String) : Option V :=
  (fsRead fs (getFilePath o.directory key)).map PFile.value

end Persistence

namespace QueryCache

/-- Retry configuration of `QueryCache` (`RetryOptions`, defaults
`maxRetries = 3`, `retryDelay = 1000`). -/
structure RetryOptions where
  maxRetries : Nat
  retryDelay : Nat
deriving DecidableEq, Repr

/-- Outcome of `retryOperation`: a value, the verbatim error of the last
attempt (rethrown when `attempts === maxRetries`), or the
`Retry operation failed` error thrown after the loop (reachable only when
`maxRetries = 0`). -/
inductive RetryOutcome (E V : Type) where
  | ok (v : V)
  | fetchErr (e : E)
  | exhaustedErr
deriving DecidableEq, Repr

/-- The `while (attempts < maxRetries)` loop of `QueryCache.retryOperation`,
starting at a given `attempts` counter.  `op k` is the outcome of the
`k`-th (0-based) invocation of the operation.  Returns the loop's outcome,
the number of invocations performed, and the list of backoff delays slept
(`retryDelay * attempts` after each non-final failure). -/
def retryGo {E V : Type} (op : Nat → Except E V) (maxRetries retryDelay : Nat)
    (attempts : Nat) : RetryOutcome E V × Nat × List Nat :=
  if _h : attempts < maxRetries then
    match op attempts with
    | .ok v => (.ok v, 1, [])
    | .error e =>
        if attempts + 1 = maxRetries then
          (.fetchErr e, 1, [])
        else
          ((retryGo op maxRetries retryDelay (attempts + 1)).1,
           (retryGo op maxRetries retryDelay (attempts + 1)).2.1 + 1,
           retryDelay * (attempts + 1) ::
             (retryGo op maxRetries retryDelay (attempts + 1)).2.2)
  else (.exhaustedErr, 0, [])
termination_by maxRetries - attempts

/-- `QueryCache.retryOperation(operation, options)`. -/
def retryOperation {E V : Type} (op : Nat → Except E V) (opts : RetryOptions) :
    RetryOutcome E V × Nat × List Nat :=
  retryGo op opts.maxRetries opts.retryDelay 0

/-- A memory-cache entry: value, insertion/refresh time, and TTL. -/
structure LEntry (V : Type) where
  value : V
  start : Nat
  ttl : Nat
deriving DecidableEq, Repr

/-- Cache configuration relevant to the claims: the constructor default `ttl`
and the optional persistence configuration.  (The LRU capacity bounds and the
concurrency limit of the fetch path are orthogonal to the properties proved
here: a single `get` with an idle controller runs its fetch immediately.) -/
structure QCOptions where
  ttl : Nat
  persistence : Option Persistence.PMOptions
deriving DecidableEq, Repr

/-- State of `QueryCache`: the memory cache (insertion-ordered association
list, as a JS `Map`), the persistence directory, and the hit/miss
counters. -/
structure QCState (V : Type) where
  mem : List (String × LEntry V)
  disk : Persistence.FS V
  hits : Nat
  misses : Nat
deriving DecidableEq, Repr

/-- Modelled from the spec: `this.cache.get(key)` of the external `lru-cache`
dependency, under the options the constructor passes
(`ttl`, `updateAgeOnGet: true`).  A key set with `ttl = T` is treated as
absent for reads at time ≥ T after its `start` (and the stale entry is
dropped); a successful read refreshes `start` — the spec's
"`updateAgeOnGet` extends an entry's effective freshness on read". -/
def lruGet {V : Type} (now : Nat) (mem : List (String × LEntry V)) (key : String) :
    Option V × List (String × LEntry V) :=
  match mem.find? (fun e => e.1 = key) with
  | none => (none, mem)
  | some e =>
      if e.2.start + e.2.ttl ≤ now then
        (none, mem.filter (fun x => x.1 ≠ key))
      else
        (some e.2.value,
         mem.map (fun x => if x.1 = key then (key, { x.2 with start := now }) else x))

/-- Modelled from the spec: `this.cache.set(key, value, {ttl})` — replace the
entry in place when the key exists, append otherwise, stamping the entry with
the write time and the given TTL. -/
def lruSet {V : Type} (now : Nat) (mem : List (String × LEntry V)) (key : String)
    (v : V) (ttl : Nat) : List (String × LEntry V) :=
  match mem with
  | [] => [(key, ⟨v, now, ttl⟩)]
  | x :: xs => if x.1 = key then (key, ⟨v, now, ttl⟩) :: xs
               else x :: lruSet now xs key v ttl

/-- Events `QueryCache` emits on its `error` channel that the claims
mention: a persistence failure during `set` (operation `persist`) and a fetch
failure that exhausted its retries (operation `get`). -/
inductive QCEvent where
  | persistError (key : String)
  | getError (key : String)
deriving DecidableEq, Repr

/-- `QueryCache.set(key, value, {ttl})`: write the memory cache first (with
the given TTL, falling back to the constructor default); when persistence is
configured also `save` to disk, and on a save failure log and emit an
`error` event — `set` itself never throws and the memory write stands. -/
def qcSet {V : Type} (o : QCOptions) (size : String → V → Nat) (now : Nat)
    (key : String) (v : V) (ttlOpt : Option Nat) (s : QCState V) :
    QCState V × List QCEvent :=
  match o.persistence with
  | none => ({ s with mem := lruSet now s.mem key v (ttlOpt.getD o.ttl) }, [])
  | some po =>
      match Persistence.save po size now key v s.disk with
      | .ok fs2 =>
          ({ s with mem := lruSet now s.mem key v (ttlOpt.getD o.ttl),
                    disk := fs2 }, [])
      | .error _ =>
          ({ s with mem := lruSet now s.mem key v (ttlOpt.getD o.ttl) },
           [.persistError key])

/-- Result of one `QueryCache.get` call: the new cache state, the outcome
(the returned value, or the verbatim error it rethrows), the number of times
the fetcher ran, the backoff delays slept, and the events emitted. -/
structure GetResult (E V : Type) where
  state : QCState V
  outcome : RetryOutcome E V
  fetchCalls : Nat
  delays : List Nat
  events : List QCEvent
deriving DecidableEq, Repr

/-- Miss path of `QueryCache.get`: count the miss, then run the fetcher
through the concurrency controller (pass-through for a single in-flight get)
inside `retryOperation`; a successful attempt stores the value via `set`
(which may also emit a persistence event) and returns it; exhausted retries
emit an `error` event (operation `get`) and rethrow the last error
verbatim. -/
def qcMiss {E V : Type} (o : QCOptions) (size : String → V → Nat) (now : Nat)
    (key : String) (ttlOpt : Option Nat) (fetch : Nat → Except E V)
    (ropts : RetryOptions) (s1 : QCState V) : GetResult E V :=
  let s2 : QCState V := { s1 with misses := s1.misses + 1 }
  match retryOperation fetch ropts with
  | (.ok v, calls, delays) =>
      ((fun sv => ⟨sv.1, .ok v, calls, delays, sv.2⟩)
        (qcSet o size now key v ttlOpt s2))
  | (.fetchErr e, calls, delays) => ⟨s2, .fetchErr e, calls, delays, [.getError key]⟩
  | (.exhaustedErr, calls, delays) => ⟨s2, .exhaustedErr, calls, delays, [.getError key]⟩

/-- `QueryCache.get(key, fetcher, {ttl, retryOptions})` (no warm-up pending):
memory hit → count a hit and return the cached value; else, with persistence
configured, a successful disk load repopulates the memory cache (with the
call's TTL option) and counts as a hit; otherwise the miss path runs the
fetcher with retries. -/
def qcGet {E V : Type} (o : QCOptions) (size : String → V → Nat) (now : Nat)
    (key : String) (ttlOpt : Option Nat) (fetch : Nat → Except E V)
    (ropts : RetryOptions) (s : QCState V) : GetResult E V :=
  match lruGet now s.mem key with
  | (some v, mem2) =>
      ⟨{ s with mem := mem2, hits := s.hits + 1 }, .ok v, 0, [], []⟩
  | (none, mem2) =>
      let s1 : QCState V := { s with mem := mem2 }
      match o.persistence with
      | some po =>
          match Persistence.load po s1.disk key with
          | some v =>
              ⟨{ s1 with mem := lruSet now s1.mem key v (ttlOpt.getD o.ttl),
                         hits := s1.hits + 1 }, .ok v, 0, [], []⟩
          | none => qcMiss o size now key ttlOpt fetch ropts s1
      | none => qcMiss o size now key ttlOpt fetch ropts s1

end QueryCache

namespace Concurrency

theorem insertByPriority_length (t : PTask) (q : List PTask) :
    (insertByPriority t q).length = q.length + 1 := by
  induction q with
  | nil => simp [insertByPriority]
  | cons x xs ih =>
      simp only [insertByPriority]
      split <;> simp [ih]

theorem ccAdd_running_le (m : Nat) (t : PTask) (s : CCState)
    (h : s.running ≤ m) : (ccAdd m t s).running ≤ m := by
  unfold ccAdd
  split
  · exact h
  · show s.running + 1 ≤ m
    omega

theorem ccComplete_running_le (m : Nat) (s : CCState)
    (h : s.running ≤ m) : (ccComplete m s).running ≤ m := by
  unfold ccComplete
  split
  · exact h
  · split
    · show s.running - 1 + 1 ≤ m
      omega
    · show s.running - 1 ≤ m
      omega

theorem ccRun_running_le (m : Nat) (ops : List CCOp) (s : CCState)
    (h : s.running ≤ m) : (ccRun m s ops).running ≤ m := by
  induction ops generalizing s with
  | nil => exact h
  | cons op rest ih =>
      cases op with
      | add t => exact ih _ (ccAdd_running_le m t s h)
      | complete => exact ih _ (ccComplete_running_le m s h)

/-- Folding a batch of `add` events with no completions: `running` saturates at
`maxConcurrent` and the overflow goes to the queue. -/
theorem ccAdds_counts (m : Nat) (ts : List PTask) (s : CCState)
    (h : s.running ≤ m) :
    (ccRun m s (ts.map .add)).running = min (s.running + ts.length) m ∧
    (ccRun m s (ts.map .add)).queue.length = s.queue.length + (s.running + ts.length - m) := by
  induction ts generalizing s with
  | nil =>
      simp [ccRun]
      omega
  | cons t rest ih =>
      simp only [List.map_cons, ccRun, List.foldl_cons]
      by_cases hm : s.running ≥ m
      · have hrm : s.running = m := le_antisymm h hm
        have hstep : ccStep m s (.add t) =
            { s with queue := insertByPriority t s.queue } := by
          simp [ccStep, ccAdd, hm]
        rw [hstep]
        have h12 := ih { s with queue := insertByPriority t s.queue } (by simpa using h)
        simp only [ccRun] at h12
        obtain ⟨h1, h2⟩ := h12
        rw [h1, h2]
        simp only [insertByPriority_length, List.length_cons]
        constructor
        · omega
        · omega
      · have hstep : ccStep m s (.add t) = { s with running := s.running + 1 } := by
          simp [ccStep, ccAdd, hm]
        rw [hstep]
        have h12 := ih { s with running := s.running + 1 } (by simp; omega)
        simp only [ccRun] at h12
        obtain ⟨h1, h2⟩ := h12
        rw [h1, h2]
        simp only [List.length_cons]
        constructor
        · omega
        · omega


theorem mem_insertByPriority (t y : PTask) (q : List PTask) :
    y ∈ insertByPriority t q ↔ y = t ∨ y ∈ q := by
  induction q with
  | nil => simp [insertByPriority]
  | cons x xs ih =>
      simp only [insertByPriority]
      split
      · exact List.mem_cons
      · simp only [List.mem_cons, ih]
        tauto

theorem insertByPriority_split (t : PTask) (q : List PTask) :
    ∃ l r, q = l ++ r ∧ insertByPriority t q = l ++ t :: r ∧
      (∀ x ∈ l, t.priority ≤ x.priority) ∧
      (∀ y, r.head? = some y → y.priority < t.priority) := by
  induction q with
  | nil =>
      exact ⟨[], [], by simp [insertByPriority]⟩
  | cons x xs ih =>
      by_cases hx : x.priority < t.priority
      · refine ⟨[], x :: xs, by simp, ?_, by simp, ?_⟩
        · simp [insertByPriority, hx]
        · intro y hy
          simp only [List.head?_cons, Option.some.injEq] at hy
          subst hy
          exact hx
      · obtain ⟨l, r, hq, hins, hl, hr⟩ := ih
        refine ⟨x :: l, r, by simp [hq], ?_, ?_, hr⟩
        · simp only [insertByPriority, if_neg hx, hins, List.cons_append]
        · intro z hz
          rcases List.mem_cons.mp hz with hz | hz
          · subst hz
            omega
          · exact hl z hz

theorem qsorted_insertByPriority (t : PTask) (q : List PTask)
    (hs : QSorted q) (hf : ∀ x ∈ q, x.seq < t.seq) :
    QSorted (insertByPriority t q) := by
  induction q with
  | nil => simp [insertByPriority, QSorted]
  | cons x xs ih =>
      rw [QSorted, List.pairwise_cons] at hs
      obtain ⟨hx, hxs⟩ := hs
      by_cases hp : x.priority < t.priority
      · simp only [insertByPriority, if_pos hp]
        rw [QSorted, List.pairwise_cons]
        refine ⟨?_, List.pairwise_cons.mpr ⟨hx, hxs⟩⟩
        intro y hy

        rcases List.mem_cons.mp hy with hy | hy
        · subst hy
          exact Or.inl hp
        · have hby : y.priority < x.priority ∨
              (x.priority = y.priority ∧ x.seq < y.seq) := hx y hy
          refine Or.inl ?_
          omega
      · simp only [insertByPriority, if_neg hp]
        rw [QSorted, List.pairwise_cons]
        refine ⟨?_, ih hxs (fun z hz => hf z (List.mem_cons_of_mem x hz))⟩
        intro y hy
        rcases (mem_insertByPriority t y xs).mp hy with hy | hy
        · have hseq := hf x (List.mem_cons_self x xs)
          have hgoal : t.priority < x.priority ∨
              (x.priority = t.priority ∧ x.seq < t.seq) := by omega
          rw [hy]
          exact hgoal
        · exact hx y hy

/-- C4: ConcurrencyController admission bound.  With `maxConcurrent = m`,
(1) after any batch of `add` calls whose tasks are all still in flight,
`getStats` reports `min n m` running and `n - m` queued; (2) in particular a
batch of `m + k` such adds reports exactly `m` running and `k` queued; and
(3) over every history of adds and task completions, the running count never
exceeds `m`. -/
theorem C4_admission_bound (m : Nat) :
    (∀ ts : List PTask, ccGetStats m (ccRun m ccInit (ts.map .add)) =
      (min ts.length m, ts.length - m, m)) ∧
    (∀ k : Nat, ∀ ts : List PTask, ts.length = m + k →
      ccGetStats m (ccRun m ccInit (ts.map .add)) = (m, k, m)) ∧
    (∀ ops : List CCOp, (ccRun m ccInit ops).running ≤ m) := by
  have hbase : ∀ ts : List PTask,
      (ccRun m ccInit (ts.map .add)).running = min ts.length m ∧
      (ccRun m ccInit (ts.map .add)).queue.length = ts.length - m := by
    intro ts
    have h := ccAdds_counts m ts ccInit (by simp [ccInit])
    simpa [ccInit] using h
  refine ⟨?_, ?_, ?_⟩
  · intro ts
    have h := hbase ts
    simp [ccGetStats, h.1, h.2]
  · intro k ts hlen
    have h := hbase ts
    have h1 : (ccRun m ccInit (ts.map .add)).running = m := by
      rw [h.1]
      omega
    have h2 : (ccRun m ccInit (ts.map .add)).queue.length = k := by
      rw [h.2]
      omega
    simp [ccGetStats, h1, h2]
  · intro ops
    exact ccRun_running_le m ops ccInit (by simp [ccInit])

/-- C4 witness: with `maxConcurrent = 2`, three in-flight adds report exactly
2 running and 1 queued. -/
theorem C4_admission_bound_witness :
    ccGetStats 2 (ccRun 2 ccInit ([⟨0, 0⟩, ⟨0, 1⟩, ⟨0, 2⟩].map .add)) = (2, 1, 2) :=
  (C4_admission_bound 2).2.1 1 [⟨0, 0⟩, ⟨0, 1⟩, ⟨0, 2⟩] (by decide)

/-- C5: ConcurrencyController queue ordering.  An `add` issued at capacity
inserts the task after every queued item of priority ≥ p and immediately
before the first queued item of strictly lower priority (appended when none
exists); and on a queue ordered by descending priority with FIFO ties the
insertion keeps that order, so shifting from the front dispatches by
descending priority, FIFO within each band. -/
theorem C5_queue_order (t : PTask) (q : List PTask)
    (hs : QSorted q) (hf : ∀ x ∈ q, x.seq < t.seq) :
    (∃ l r, q = l ++ r ∧ insertByPriority t q = l ++ t :: r ∧
      (∀ x ∈ l, t.priority ≤ x.priority) ∧
      (∀ y, r.head? = some y → y.priority < t.priority)) ∧
    QSorted (insertByPriority t q) ∧
    (∀ y ys, insertByPriority t q = y :: ys → ∀ z ∈ ys, qBefore y z) :=
  ⟨insertByPriority_split t q,
   qsorted_insertByPriority t q hs hf,
   by
     intro y ys hins z hz
     have hsorted := qsorted_insertByPriority t q hs hf
     rw [hins, QSorted, List.pairwise_cons] at hsorted
     exact hsorted.1 z hz⟩

/-- C5 witness: inserting priority 3 (arrival 3) into the sorted queue
`[(5,0), (3,1), (1,2)]` places it after the existing priority-3 task and
before the priority-1 task. -/
theorem C5_queue_order_witness :
    (∃ l r, [(⟨5, 0⟩ : PTask), ⟨3, 1⟩, ⟨1, 2⟩] = l ++ r ∧
      insertByPriority ⟨3, 3⟩ [⟨5, 0⟩, ⟨3, 1⟩, ⟨1, 2⟩] = l ++ ⟨3, 3⟩ :: r ∧
      (∀ x ∈ l, (3 : Nat) ≤ x.priority) ∧
      (∀ y, r.head? = some y → y.priority < 3)) ∧
    QSorted (insertByPriority ⟨3, 3⟩ [⟨5, 0⟩, ⟨3, 1⟩, ⟨1, 2⟩]) ∧
    (∀ y ys, insertByPriority ⟨3, 3⟩ [⟨5, 0⟩, ⟨3, 1⟩, ⟨1, 2⟩] = y :: ys →
      ∀ z ∈ ys, qBefore y z) :=
  C5_queue_order ⟨3, 3⟩ [⟨5, 0⟩, ⟨3, 1⟩, ⟨1, 2⟩]
    (by simp [QSorted, qBefore]) (by decide)

end Concurrency

namespace PrismaPool

theorem mem_addToSet (l : List Nat) (x y : Nat) :
    y ∈ addToSet l x ↔ y ∈ l ∨ y = x := by
  unfold addToSet
  split
  · constructor
    · exact Or.inl
    · rintro (h | rfl) <;> assumption
  · simp [List.mem_append]

theorem nodup_addToSet (l : List Nat) (x : Nat) (h : l.Nodup) :
    (addToSet l x).Nodup := by
  unfold addToSet
  split
  · exact h
  · rw [List.nodup_append]
    refine ⟨h, List.nodup_singleton x, ?_⟩
    intro a ha hax
    rw [List.mem_singleton] at hax
    subst hax
    exact absurd ha (by assumption)

theorem map_id_touchAcquired (now id : Nat) (cs : List ClientInfo) :
    (touchAcquired now id cs).map ClientInfo.id = cs.map ClientInfo.id := by
  unfold touchAcquired
  rw [List.map_map]
  apply List.map_congr_left
  intro c _
  by_cases h : c.id = id <;> simp [h]

theorem length_touchAcquired (now id : Nat) (cs : List ClientInfo) :
    (touchAcquired now id cs).length = cs.length := by
  simp [touchAcquired]

theorem map_id_setAcquiredAt (now id : Nat) (cs : List ClientInfo) :
    (setAcquiredAt now id cs).map ClientInfo.id = cs.map ClientInfo.id := by
  unfold setAcquiredAt
  rw [List.map_map]
  apply List.map_congr_left
  intro c _
  by_cases h : c.id = id <;> simp [h]

theorem length_setAcquiredAt (now id : Nat) (cs : List ClientInfo) :
    (setAcquiredAt now id cs).length = cs.length := by
  simp [setAcquiredAt]

theorem mem_map_id_filter_ne (cs : List ClientInfo) (id x : Nat) :
    x ∈ (cs.filter (fun c => c.id ≠ id)).map ClientInfo.id ↔
      x ∈ cs.map ClientInfo.id ∧ x ≠ id := by
  simp only [List.mem_map, List.mem_filter, decide_not, Bool.not_eq_eq_eq_not,
    Bool.not_true, decide_eq_false_iff_not]
  constructor
  · rintro ⟨c, ⟨hc, hne⟩, rfl⟩
    exact ⟨⟨c, hc, rfl⟩, hne⟩
  · rintro ⟨⟨c, hc, rfl⟩, hne⟩
    exact ⟨c, ⟨hc, hne⟩, rfl⟩

theorem length_filter_ne_of_mem (cs : List ClientInfo) (id : Nat)
    (hnd : (cs.map ClientInfo.id).Nodup) (hmem : id ∈ cs.map ClientInfo.id) :
    (cs.filter (fun c => c.id ≠ id)).length + 1 = cs.length := by
  induction cs with
  | nil => simp at hmem
  | cons c rest ih =>
      rw [List.map_cons, List.nodup_cons] at hnd
      by_cases hc : c.id = id
      · have hall : rest.filter (fun c => c.id ≠ id) = rest := by
          apply List.filter_eq_self.mpr
          intro a ha
          simp only [ne_eq, decide_eq_true_eq]
          intro hax
          apply hnd.1
          rw [hc, ← hax]
          exact List.mem_map_of_mem ClientInfo.id ha
        rw [List.filter_cons, if_neg (by simp [hc]), hall, List.length_cons]
      · rw [List.map_cons, List.mem_cons] at hmem
        rcases hmem with hmem | hmem
        · exact absurd hmem.symm hc
        · have hrec := ih hnd.2 hmem
          rw [List.filter_cons, if_pos (by simp [hc]), List.length_cons, List.length_cons]
          omega

theorem active_idle_card (o : PoolOptions) (s : PoolState) (h : WF o s) :
    s.activeClients.length + s.idleClients.length ≤ s.clients.length := by
  have hnd : (s.activeClients ++ s.idleClients).Nodup := by
    rw [List.nodup_append]
    exact ⟨h.activeNodup, h.idleNodup, h.disj⟩
  have hsub : s.activeClients ++ s.idleClients ⊆ s.clients.map ClientInfo.id := by
    intro x hx
    rcases List.mem_append.mp hx with hx | hx
    · exact h.activeSub x hx
    · exact h.idleSub x hx
  have hle := (hnd.subperm hsub).length_le
  rw [List.length_append, List.length_map] at hle
  exact hle

theorem wf_acquire (o : PoolOptions) (now : Nat) (ok : Bool) (s : PoolState)
    (h : WF o s) : WF o (acquire o now ok s).1 := by
  unfold acquire
  cases hidle : s.idleClients with
  | cons id rest =>
      have hid_idle : id ∈ s.idleClients := by rw [hidle]; exact List.mem_cons_self id rest
      have hid_not_active : id ∉ s.activeClients := fun ha => h.disj id ha hid_idle
      have hrestnd : rest.Nodup ∧ id ∉ rest := by
        have := h.idleNodup
        rw [hidle, List.nodup_cons] at this
        exact ⟨this.2, this.1⟩
      refine ⟨nodup_addToSet _ _ h.activeNodup, hrestnd.1, ?_, ?_, ?_, ?_, ?_, ?_, ?_⟩
      · rw [map_id_touchAcquired]
        exact h.cidsNodup
      · intro x hx
        rcases (mem_addToSet _ _ _).mp hx with hx | rfl
        · intro hxr
          exact h.disj x hx (by rw [hidle]; exact List.mem_cons_of_mem id hxr)
        · exact hrestnd.2
      · intro x hx
        rw [map_id_touchAcquired]
        rcases (mem_addToSet _ _ _).mp hx with hx | rfl
        · exact h.activeSub x hx
        · exact h.idleSub x hid_idle
      · intro x hx
        rw [map_id_touchAcquired]
        exact h.idleSub x (by rw [hidle]; exact List.mem_cons_of_mem id hx)
      · intro x hx
        rw [map_id_touchAcquired] at hx
        exact h.idsLt x hx
      · rw [length_touchAcquired]
        exact h.lenLe
      · rw [length_touchAcquired]
        exact h.minLe
  | nil =>
      by_cases hlen : s.clients.length < o.max
      · cases ok with
        | false => simpa [hlen] using h
        | true =>
            simp only [hlen, if_true]
            have hfresh : s.nextId ∉ s.clients.map ClientInfo.id := fun hmem =>
              lt_irrefl _ (h.idsLt _ hmem)
            have hfresh_active : s.nextId ∉ s.activeClients := fun ha =>
              hfresh (h.activeSub _ ha)
            refine ⟨nodup_addToSet _ _ h.activeNodup, List.nodup_nil, ?_, ?_, ?_, ?_, ?_, ?_, ?_⟩
            · rw [List.map_append]
              rw [List.nodup_append]
              refine ⟨h.cidsNodup, by simp, ?_⟩
              intro a ha hax
              simp only [List.map_cons, List.map_nil, List.mem_singleton] at hax
              subst hax
              exact hfresh ha
            · intro x hx
              exact List.not_mem_nil x
            · intro x hx
              rw [List.map_append]
              rcases (mem_addToSet _ _ _).mp hx with hx | hxeq
              · exact List.mem_append_left _ (h.activeSub x hx)
              · rw [hxeq]
                exact List.mem_append_right _ (by simp)
            · intro x hx
              exact absurd hx (List.not_mem_nil x)
            · intro x hx
              rw [List.map_append] at hx
              rcases List.mem_append.mp hx with hx | hx
              · exact Nat.lt_succ_of_lt (h.idsLt x hx)
              · simp only [List.map_cons, List.map_nil, List.mem_singleton] at hx
                subst hx
                exact Nat.lt_succ_self _
            · rw [List.length_append]
              simpa using hlen
            · rw [List.length_append]
              exact le_trans h.minLe (Nat.le_add_right _ _)
      · simp only [hlen, if_false]
        exact ⟨h.activeNodup, List.nodup_nil, h.cidsNodup,
          (fun x _ hxi => List.not_mem_nil x hxi), h.activeSub,
          (fun x hx => absurd hx (List.not_mem_nil x)),
          h.idsLt, h.lenLe, h.minLe⟩

theorem wf_release (o : PoolOptions) (now id : Nat) (s : PoolState)
    (h : WF o s) : WF o (release now id s).1 := by
  unfold release
  by_cases hact : id ∈ s.activeClients
  · simp only [hact, if_true]
    cases hq : s.waitingQueue with
    | cons w ws =>
        have hernd : (s.activeClients.erase id).Nodup := h.activeNodup.erase id
        have hid_not_er : id ∉ s.activeClients.erase id := fun hmem =>
          ((h.activeNodup.mem_erase_iff).mp hmem).1 rfl
        refine ⟨nodup_addToSet _ _ hernd, h.idleNodup, ?_, ?_, ?_, ?_, ?_, ?_, ?_⟩
        · rw [map_id_setAcquiredAt]
          exact h.cidsNodup
        · intro x hx
          rcases (mem_addToSet _ _ _).mp hx with hx | hxeq
          · exact h.disj x (List.mem_of_mem_erase hx)
          · rw [hxeq]
            exact h.disj id hact
        · intro x hx
          rw [map_id_setAcquiredAt]
          rcases (mem_addToSet _ _ _).mp hx with hx | hxeq
          · exact h.activeSub x (List.mem_of_mem_erase hx)
          · rw [hxeq]
            exact h.activeSub id hact
        · intro x hx
          rw [map_id_setAcquiredAt]
          exact h.idleSub x hx
        · intro x hx
          rw [map_id_setAcquiredAt] at hx
          exact h.idsLt x hx
        · rw [length_setAcquiredAt]
          exact h.lenLe
        · rw [length_setAcquiredAt]
          exact h.minLe
    | nil =>
        refine ⟨h.activeNodup.erase id, nodup_addToSet _ _ h.idleNodup, h.cidsNodup,
          ?_, ?_, ?_, h.idsLt, h.lenLe, h.minLe⟩
        · intro x hx hxi
          have hx' := (h.activeNodup.mem_erase_iff).mp hx
          rcases (mem_addToSet _ _ _).mp hxi with hxi | hxeq
          · exact h.disj x hx'.2 hxi
          · exact hx'.1 hxeq
        · intro x hx
          exact h.activeSub x (List.mem_of_mem_erase hx)
        · intro x hx
          rcases (mem_addToSet _ _ _).mp hx with hx | hxeq
          · exact h.idleSub x hx
          · rw [hxeq]
            exact h.activeSub id hact
  · simp only [hact, if_false]
    exact h

theorem sweepCond_facts (o : PoolOptions) (now : Nat) (s : PoolState) (id : Nat)
    (h : sweepCond o now s id = true) :
    o.min < s.clients.length ∧ id ∈ s.clients.map ClientInfo.id := by
  unfold sweepCond at h
  cases hf : s.clients.find? (fun c => c.id = id) with
  | none =>
      rw [hf] at h
      simp at h
  | some ci =>
      rw [hf] at h
      simp only [Bool.and_eq_true, decide_eq_true_eq] at h
      have hmem := List.mem_of_find?_eq_some hf
      have hid : ci.id = id := by
        have hp := List.find?_some hf
        simpa using hp
      exact ⟨h.2, hid ▸ List.mem_map_of_mem ClientInfo.id hmem⟩

theorem wf_removeIdle (o : PoolOptions) (s : PoolState) (id : Nat) (h : WF o s)
    (hna : id ∉ s.activeClients)
    (hmin : o.min < s.clients.length) (hmem : id ∈ s.clients.map ClientInfo.id) :
    WF o { s with idleClients := s.idleClients.erase id,
                  clients := s.clients.filter (fun c => c.id ≠ id) } := by
  have hkey := length_filter_ne_of_mem s.clients id h.cidsNodup hmem
  refine ⟨h.activeNodup, h.idleNodup.erase id, ?_, ?_, ?_, ?_, ?_, ?_, ?_⟩
  · exact List.Nodup.sublist (List.Sublist.map _ (List.filter_sublist _)) h.cidsNodup
  · intro x hx hxi
    exact h.disj x hx (List.mem_of_mem_erase hxi)
  · intro x hx
    apply (mem_map_id_filter_ne _ _ _).mpr
    refine ⟨h.activeSub x hx, ?_⟩
    intro hxeq
    rw [hxeq] at hx
    exact hna hx
  · intro x hx
    have hx' := (h.idleNodup.mem_erase_iff).mp hx
    exact (mem_map_id_filter_ne _ _ _).mpr ⟨h.idleSub x hx'.2, hx'.1⟩
  · intro x hx
    exact h.idsLt x ((mem_map_id_filter_ne _ _ _).mp hx).1
  · exact le_trans (List.length_filter_le _ _) h.lenLe
  · show o.min ≤ (s.clients.filter (fun c => c.id ≠ id)).length
    omega

theorem wf_idleSweep (o : PoolOptions) (now : Nat) (snap : List Nat)
    (s : PoolState) (h : WF o s) (hna : ∀ x ∈ snap, x ∉ s.activeClients) :
    WF o (idleSweep o now snap s).1 := by
  induction snap generalizing s with
  | nil => exact h
  | cons id rest ih =>
      unfold idleSweep
      by_cases hsc : sweepCond o now s id = true
      · rw [if_pos hsc]
        have hfacts := sweepCond_facts o now s id hsc
        have hid := hna id (List.mem_cons_self id rest)
        exact ih _ (wf_removeIdle o s id h hid hfacts.1 hfacts.2)
          (fun x hx => hna x (List.mem_cons_of_mem id hx))
      · rw [if_neg hsc]
        exact ih s h (fun x hx => hna x (List.mem_cons_of_mem id hx))

theorem wf_maintenance (o : PoolOptions) (now : Nat) (s : PoolState)
    (h : WF o s) : WF o (maintenance o now s).1 := by
  unfold maintenance
  have h1 : WF o { s with leakedConnections :=
      s.leakedConnections + (leakPass o now s.clients).length } :=
    ⟨h.activeNodup, h.idleNodup, h.cidsNodup, h.disj, h.activeSub, h.idleSub,
      h.idsLt, h.lenLe, h.minLe⟩
  have h2 := wf_idleSweep o now _ _ h1
    (fun x hxi hxa => h1.disj x hxa hxi)
  exact ⟨h2.activeNodup, h2.idleNodup, h2.cidsNodup, h2.disj, h2.activeSub,
    h2.idleSub, h2.idsLt, h2.lenLe, h2.minLe⟩

theorem wf_step (o : PoolOptions) (s : PoolState) (op : PoolOp) (h : WF o s) :
    WF o (step o s op) := by
  cases op with
  | acq now ok => exact wf_acquire o now ok s h
  | rel now id => exact wf_release o now id s h
  | maint now => exact wf_maintenance o now s h

theorem wf_run (o : PoolOptions) (ops : List PoolOp) (s : PoolState)
    (h : WF o s) : WF o (run o s ops) := by
  induction ops generalizing s with
  | nil => exact h
  | cons op rest ih => exact ih _ (wf_step o s op h)

theorem filterMap_fst_create (now : Nat) (l : List Nat) :
    (l.map (fun i => createClient now true i)).filterMap Prod.fst =
      l.map (fun i => ({ id := i, lastActive := now, acquiredAt := none } : ClientInfo)) := by
  induction l with
  | nil => rfl
  | cons a t ih =>
      rw [List.map_cons, List.filterMap_cons]
      show ({ id := a, lastActive := now, acquiredAt := none } : ClientInfo) ::
          (t.map (fun i => createClient now true i)).filterMap Prod.fst =
        (a :: t).map
          (fun i => ({ id := i, lastActive := now, acquiredAt := none } : ClientInfo))
      rw [ih, List.map_cons]

theorem postWarmup_clients (o : PoolOptions) :
    (postWarmupState o).clients =
      (List.range o.min).map
        (fun i => ({ id := i, lastActive := 0, acquiredAt := none } : ClientInfo)) := by
  have h : (postWarmupState o).clients =
      ((List.range o.min).map (fun i => createClient 0 true i)).filterMap Prod.fst := rfl
  rw [h, filterMap_fst_create]

theorem postWarmup_cids (o : PoolOptions) :
    (postWarmupState o).clients.map ClientInfo.id = List.range o.min := by
  rw [postWarmup_clients, List.map_map]
  have h : (ClientInfo.id ∘ fun i =>
      ({ id := i, lastActive := 0, acquiredAt := none } : ClientInfo)) = fun i => i := rfl
  rw [h]
  exact List.map_id' (List.range o.min)

theorem postWarmup_idle (o : PoolOptions) :
    (postWarmupState o).idleClients = List.range o.min := by
  have h : (postWarmupState o).idleClients =
      (postWarmupState o).clients.map ClientInfo.id := rfl
  rw [h]
  exact postWarmup_cids o

theorem wf_postWarmup (o : PoolOptions) (hminmax : o.min ≤ o.max) :
    WF o (postWarmupState o) := by
  have hact : (postWarmupState o).activeClients = [] := by
    unfold postWarmupState initMinConnections
    rfl
  have hwait : (postWarmupState o).nextId = o.min := by
    unfold postWarmupState initMinConnections
    rfl
  have hlen : (postWarmupState o).clients.length = o.min := by
    rw [postWarmup_clients, List.length_map, List.length_range]
  refine ⟨?_, ?_, ?_, ?_, ?_, ?_, ?_, ?_, ?_⟩
  · rw [hact]
    exact List.nodup_nil
  · rw [postWarmup_idle]
    exact List.nodup_range o.min
  · rw [postWarmup_cids]
    exact List.nodup_range o.min
  · intro x hx
    rw [hact] at hx
    exact absurd hx (List.not_mem_nil x)
  · intro x hx
    rw [hact] at hx
    exact absurd hx (List.not_mem_nil x)
  · intro x hx
    rw [postWarmup_idle] at hx
    rw [postWarmup_cids]
    exact hx
  · intro x hx
    rw [postWarmup_cids] at hx
    rw [hwait]
    exact List.mem_range.mp hx
  · rw [hlen]
    exact hminmax
  · rw [hlen]

theorem callResume_eq_acquire (o : PoolOptions) (now : Nat) (ok : Bool)
    (b : PoolState) :
    stepI o (stepI o ⟨b, 0⟩ (.call now)) (.resume now ok) =
      ⟨(acquire o now ok b).1, 0⟩ := by
  cases hidle : b.idleClients with
  | cons id rest =>
      have hcall : stepI o ⟨b, 0⟩ (.call now) = ⟨(acquire o now true b).1, 0⟩ := by
        simp only [stepI, hidle]
      have hacq : (acquire o now true b).1 = (acquire o now ok b).1 := by
        unfold acquire
        rw [hidle]
      rw [hcall, hacq]
      simp [stepI]
  | nil =>
      by_cases hlen : b.clients.length < o.max
      · have hcall : stepI o ⟨b, 0⟩ (.call now) = ⟨b, 1⟩ := by
          simp only [stepI, hidle]
          rw [if_pos hlen]
        rw [hcall]
        cases ok with
        | true =>
            have hacq : (acquire o now true b).1 =
                { b with
                    clients := b.clients ++
                      [{ id := b.nextId, lastActive := now, acquiredAt := some now }],
                    activeClients := addToSet b.activeClients b.nextId,
                    nextId := b.nextId + 1 } := by
              unfold acquire
              simp only [hidle]
              rw [if_pos hlen]
              rfl
            rw [hacq]
            simp [stepI]
        | false =>
            have hacq : (acquire o now false b).1 = b := by
              unfold acquire
              simp only [hidle]
              rw [if_pos hlen]
              rfl
            rw [hacq]
            simp [stepI]
      · have hcall : stepI o ⟨b, 0⟩ (.call now) = ⟨(acquire o now true b).1, 0⟩ := by
          simp only [stepI, hidle]
          rw [if_neg hlen]
        have hacq : (acquire o now true b).1 = (acquire o now ok b).1 := by
          unfold acquire
          simp only [hidle]
          rw [if_neg hlen, if_neg hlen]
        rw [hcall, hacq]
        simp [stepI]

theorem runI_serialize (o : PoolOptions) (ops : List PoolOp) (b : PoolState) :
    runI o ⟨b, 0⟩ (serialize ops) = ⟨run o b ops, 0⟩ := by
  induction ops generalizing b with
  | nil => rfl
  | cons op rest ih =>
      cases op with
      | acq now ok =>
          simp only [serialize, runI, run, List.foldl_cons, step]
          rw [callResume_eq_acquire]
          have h := ih (acquire o now ok b).1
          simp only [runI, run] at h
          exact h
      | rel now id =>
          simp only [serialize, runI, run, List.foldl_cons, step]
          have hs : stepI o ⟨b, 0⟩ (.rel now id) = ⟨(release now id b).1, 0⟩ := rfl
          rw [hs]
          have h := ih (release now id b).1
          simp only [runI, run] at h
          exact h
      | maint now =>
          simp only [serialize, runI, run, List.foldl_cons, step]
          have hs : stepI o ⟨b, 0⟩ (.maint now) = ⟨(maintenance o now b).1, 0⟩ := rfl
          rw [hs]
          have h := ih (maintenance o now b).1
          simp only [runI, run] at h
          exact h

theorem minInv_removeIdle (o : PoolOptions) (s : PoolState) (id : Nat)
    (h : MinInv o s) (hmin : o.min < s.clients.length)
    (hmem : id ∈ s.clients.map ClientInfo.id) :
    MinInv o { s with idleClients := s.idleClients.erase id,
                      clients := s.clients.filter (fun c => c.id ≠ id) } := by
  have hkey := length_filter_ne_of_mem s.clients id h.cidsNodup hmem
  refine ⟨?_, ?_, ?_⟩
  · exact List.Nodup.sublist (List.Sublist.map _ (List.filter_sublist _)) h.cidsNodup
  · intro x hx
    exact h.idsLt x ((mem_map_id_filter_ne _ _ _).mp hx).1
  · show o.min ≤ (s.clients.filter (fun c => c.id ≠ id)).length
    omega

theorem minInv_idleSweep (o : PoolOptions) (now : Nat) (snap : List Nat)
    (s : PoolState) (h : MinInv o s) : MinInv o (idleSweep o now snap s).1 := by
  induction snap generalizing s with
  | nil => exact h
  | cons id rest ih =>
      unfold idleSweep
      by_cases hsc : sweepCond o now s id = true
      · rw [if_pos hsc]
        have hfacts := sweepCond_facts o now s id hsc
        exact ih _ (minInv_removeIdle o s id h hfacts.1 hfacts.2)
      · rw [if_neg hsc]
        exact ih s h

theorem minInv_maintenance (o : PoolOptions) (now : Nat) (s : PoolState)
    (h : MinInv o s) : MinInv o (maintenance o now s).1 := by
  unfold maintenance
  have h1 : MinInv o { s with leakedConnections :=
      s.leakedConnections + (leakPass o now s.clients).length } :=
    ⟨h.cidsNodup, h.idsLt, h.minLe⟩
  have h2 := minInv_idleSweep o now
    ({ s with leakedConnections :=
        s.leakedConnections + (leakPass o now s.clients).length }).idleClients
    { s with leakedConnections :=
        s.leakedConnections + (leakPass o now s.clients).length } h1
  exact ⟨h2.cidsNodup, h2.idsLt, h2.minLe⟩

theorem minInv_release (o : PoolOptions) (now id : Nat) (s : PoolState)
    (h : MinInv o s) : MinInv o (release now id s).1 := by
  unfold release
  by_cases hact : id ∈ s.activeClients
  · simp only [hact, if_true]
    cases hq : s.waitingQueue with
    | cons w ws =>
        refine ⟨?_, ?_, ?_⟩
        · rw [map_id_setAcquiredAt]
          exact h.cidsNodup
        · intro x hx
          rw [map_id_setAcquiredAt] at hx
          exact h.idsLt x hx
        · rw [length_setAcquiredAt]
          exact h.minLe
    | nil => exact ⟨h.cidsNodup, h.idsLt, h.minLe⟩
  · simp only [hact, if_false]
    exact h

theorem minInv_stepI (o : PoolOptions) (sI : PoolStateI) (op : PoolOpI)
    (h : MinInv o sI.base) : MinInv o (stepI o sI op).base := by
  cases op with
  | call now =>
      cases hidle : sI.base.idleClients with
      | cons id rest =>
          have hs : stepI o sI (.call now) =
              { sI with base := (acquire o now true sI.base).1 } := by
            simp only [stepI, hidle]
          have hacq : (acquire o now true sI.base).1 =
              { sI.base with clients := touchAcquired now id sI.base.clients,
                             idleClients := rest,
                             activeClients := addToSet sI.base.activeClients id } := by
            unfold acquire
            simp only [hidle]
          rw [hs]
          show MinInv o (acquire o now true sI.base).1
          rw [hacq]
          refine ⟨?_, ?_, ?_⟩
          · rw [map_id_touchAcquired]
            exact h.cidsNodup
          · intro x hx
            rw [map_id_touchAcquired] at hx
            exact h.idsLt x hx
          · rw [length_touchAcquired]
            exact h.minLe
      | nil =>
          by_cases hlen : sI.base.clients.length < o.max
          · have hs : stepI o sI (.call now) =
                { sI with pendingCreates := sI.pendingCreates + 1 } := by
              simp only [stepI, hidle]
              rw [if_pos hlen]
            rw [hs]
            exact h
          · have hs : stepI o sI (.call now) =
                { sI with base := (acquire o now true sI.base).1 } := by
              simp only [stepI, hidle]
              rw [if_neg hlen]
            have hacq : (acquire o now true sI.base).1 =
                { sI.base with
                    waitingQueue := sI.base.waitingQueue ++
                      [{ wid := sI.base.nextWid, timestamp := now }],
                    nextWid := sI.base.nextWid + 1 } := by
              unfold acquire
              simp only [hidle]
              rw [if_neg hlen]
            rw [hs]
            show MinInv o (acquire o now true sI.base).1
            rw [hacq]
            exact ⟨h.cidsNodup, h.idsLt, h.minLe⟩
  | resume now ok =>
      by_cases hp : sI.pendingCreates = 0
      · have hs : stepI o sI (.resume now ok) = sI := by
          simp only [stepI]
          rw [if_pos hp]
        rw [hs]
        exact h
      · cases ok with
        | false =>
            have hs : stepI o sI (.resume now false) =
                { sI with pendingCreates := sI.pendingCreates - 1 } := by
              simp only [stepI]
              rw [if_neg hp]
              rfl
            rw [hs]
            exact h
        | true =>
            have hs : stepI o sI (.resume now true) =
                { base := { sI.base with
                    clients := sI.base.clients ++
                      [{ id := sI.base.nextId, lastActive := now,
                         acquiredAt := some now }],
                    activeClients := addToSet sI.base.activeClients sI.base.nextId,
                    nextId := sI.base.nextId + 1 },
                  pendingCreates := sI.pendingCreates - 1 } := by
              simp only [stepI]
              rw [if_neg hp]
              rfl
            rw [hs]
            have hfresh : sI.base.nextId ∉ sI.base.clients.map ClientInfo.id :=
              fun hmem => lt_irrefl _ (h.idsLt _ hmem)
            refine ⟨?_, ?_, ?_⟩
            · rw [List.map_append, List.nodup_append]
              refine ⟨h.cidsNodup, by simp, ?_⟩
              intro a ha hax
              simp only [List.map_cons, List.map_nil, List.mem_singleton] at hax
              subst hax
              exact hfresh ha
            · intro x hx
              rw [List.map_append] at hx
              rcases List.mem_append.mp hx with hx | hx
              · exact Nat.lt_succ_of_lt (h.idsLt x hx)
              · simp only [List.map_cons, List.map_nil, List.mem_singleton] at hx
                subst hx
                exact Nat.lt_succ_self _
            · rw [List.length_append]
              exact le_trans h.minLe (Nat.le_add_right _ _)
  | rel now id =>
      have hs : stepI o sI (.rel now id) =
          { sI with base := (release now id sI.base).1 } := rfl
      rw [hs]
      exact minInv_release o now id sI.base h
  | maint now =>
      have hs : stepI o sI (.maint now) =
          { sI with base := (maintenance o now sI.base).1 } := rfl
      rw [hs]
      exact minInv_maintenance o now sI.base h

theorem minInv_runI (o : PoolOptions) (ops : List PoolOpI) (sI : PoolStateI)
    (h : MinInv o sI.base) : MinInv o (runI o sI ops).base := by
  induction ops generalizing sI with
  | nil => exact h
  | cons op rest ih => exact ih _ (minInv_stepI o sI op h)

theorem minInv_postWarmup (o : PoolOptions) : MinInv o (postWarmupState o) := by
  refine ⟨?_, ?_, ?_⟩
  · rw [postWarmup_cids]
    exact List.nodup_range o.min
  · intro x hx
    rw [postWarmup_cids] at hx
    have hn : (postWarmupState o).nextId = o.min := rfl
    rw [hn]
    exact List.mem_range.mp hx
  · have hlen : (postWarmupState o).clients.length = o.min := by
      rw [postWarmup_clients, List.length_map, List.length_range]
    rw [hlen]

/-- C1 counterexample: overlapping acquires exceed `max`.  On a
`{min := 1, max := 2}` pool (one idle client after warm-up), three acquire
calls arrive before any creation completes: the first takes the idle client,
the second and third both pass the `clients.length < max` check (1 < 2) and
suspend at `await createClient()`; when both creations then resume, each
pushes its client with no re-check of the bound, ending with 3 clients and
`active + idle = 3 > max = 2` — refuting the claimed invariant under the
program's actual event-loop semantics. -/
theorem C1_overlapping_acquires_exceed_max :
    2 < ((runI ⟨1, 2, 30, 5, 60⟩ ⟨postWarmupState ⟨1, 2, 30, 5, 60⟩, 0⟩
          [.call 0, .call 0, .call 0, .resume 0 true,
           .resume 0 true]).base.activeClients.length +
        (runI ⟨1, 2, 30, 5, 60⟩ ⟨postWarmupState ⟨1, 2, 30, 5, 60⟩, 0⟩
          [.call 0, .call 0, .call 0, .resume 0 true,
           .resume 0 true]).base.idleClients.length) ∧
    (runI ⟨1, 2, 30, 5, 60⟩ ⟨postWarmupState ⟨1, 2, 30, 5, 60⟩, 0⟩
        [.call 0, .call 0, .call 0, .resume 0 true,
         .resume 0 true]).base.clients.length = 3 := by
  decide

/-- C1 amended: pool bounds under the event-loop semantics.  The total count
never drops below `min` along every interleaving of acquire's suspension
(only maintenance removes clients, and it re-checks `clients.length > min`
on every removal); the `active + idle ≤ max` bound holds for sequences of
non-overlapping calls: a serialized trace — each suspended acquire resumed
before the next call starts — coincides with the whole-method transition
system, in which both bounds hold from the post-warm-up state whenever
`min ≤ max`. -/
theorem C1_pool_bounds_serial (o : PoolOptions) (hminmax : o.min ≤ o.max) :
    (∀ opsI : List PoolOpI,
      o.min ≤ (runI o ⟨postWarmupState o, 0⟩ opsI).base.clients.length) ∧
    (∀ ops : List PoolOp,
      runI o ⟨postWarmupState o, 0⟩ (serialize ops) =
        ⟨run o (postWarmupState o) ops, 0⟩ ∧
      (run o (postWarmupState o) ops).activeClients.length +
        (run o (postWarmupState o) ops).idleClients.length ≤ o.max ∧
      o.min ≤ (run o (postWarmupState o) ops).clients.length) := by
  constructor
  · intro opsI
    exact (minInv_runI o opsI ⟨postWarmupState o, 0⟩ (minInv_postWarmup o)).minLe
  · intro ops
    have hwf := wf_run o ops (postWarmupState o) (wf_postWarmup o hminmax)
    exact ⟨runI_serialize o ops (postWarmupState o),
      le_trans (active_idle_card o _ hwf) hwf.lenLe, hwf.minLe⟩

/-- C1 amended witness: on a `{min := 1, max := 2}` pool the `min` bound
holds along every interleaving, and both bounds hold for every serialized
trace. -/
theorem C1_pool_bounds_serial_witness :
    (∀ opsI : List PoolOpI,
      1 ≤ (runI ⟨1, 2, 30, 5, 60⟩ ⟨postWarmupState ⟨1, 2, 30, 5, 60⟩, 0⟩
        opsI).base.clients.length) ∧
    (∀ ops : List PoolOp,
      runI ⟨1, 2, 30, 5, 60⟩ ⟨postWarmupState ⟨1, 2, 30, 5, 60⟩, 0⟩
          (serialize ops) =
        ⟨run ⟨1, 2, 30, 5, 60⟩ (postWarmupState ⟨1, 2, 30, 5, 60⟩) ops, 0⟩ ∧
      (run ⟨1, 2, 30, 5, 60⟩ (postWarmupState ⟨1, 2, 30, 5, 60⟩)
          ops).activeClients.length +
        (run ⟨1, 2, 30, 5, 60⟩ (postWarmupState ⟨1, 2, 30, 5, 60⟩)
          ops).idleClients.length ≤ 2 ∧
      1 ≤ (run ⟨1, 2, 30, 5, 60⟩ (postWarmupState ⟨1, 2, 30, 5, 60⟩)
          ops).clients.length) :=
  C1_pool_bounds_serial ⟨1, 2, 30, 5, 60⟩ (by decide)

end PrismaPool

/-- C2: the leak check of `maintenance` consults only `acquiredAt`, which
`release` never clears, so a client that was acquired at time 0 and released
at time 1 still produces a `connection-leak` event on a tick at time 10 with
`leakDetectionThreshold = 5`, although it sits in the idle set and is not
checked out.  This contradicts the claim that leak events are emitted only
while the client is checked out and never after release. -/
theorem C2_leak_event_after_release :
    (PrismaPool.runEv ⟨1, 2, 1000, 5000, 5⟩
        (PrismaPool.postWarmupState ⟨1, 2, 1000, 5000, 5⟩)
        [.acq 0 true, .rel 1 0, .maint 10]).2 = [.connectionLeak 0 10] ∧
    0 ∈ (PrismaPool.runEv ⟨1, 2, 1000, 5000, 5⟩
        (PrismaPool.postWarmupState ⟨1, 2, 1000, 5000, 5⟩)
        [.acq 0 true, .rel 1 0, .maint 10]).1.idleClients ∧
    0 ∉ (PrismaPool.runEv ⟨1, 2, 1000, 5000, 5⟩
        (PrismaPool.postWarmupState ⟨1, 2, 1000, 5000, 5⟩)
        [.acq 0 true, .rel 1 0, .maint 10]).1.activeClients ∧
    (PrismaPool.runEv ⟨1, 2, 1000, 5000, 5⟩
        (PrismaPool.postWarmupState ⟨1, 2, 1000, 5000, 5⟩)
        [.acq 0 true, .rel 1 0, .maint 10]).1.leakedConnections = 1 := by
  decide

theorem createClient_true (now i : Nat) :
    PrismaPool.createClient now true i =
      (some { id := i, lastActive := now, acquiredAt := none }, []) := rfl

theorem createClient_false (now i : Nat) :
    PrismaPool.createClient now false i =
      (none, [PrismaPool.PoolEvent.errorEvent "createClient"]) := rfl

theorem initCreate_facts (now : Nat) (ok : Nat → Bool) (l : List Nat) :
    ((l.map (fun i => PrismaPool.createClient now (ok i) i)).filterMap Prod.fst).length =
      (l.filter ok).length ∧
    ((l.map (fun i => PrismaPool.createClient now (ok i) i)).map Prod.snd).flatten.length =
      l.length - (l.filter ok).length := by
  induction l with
  | nil => simp
  | cons a t ih =>
      have hle := t.length_filter_le ok
      obtain ⟨ih1, ih2⟩ := ih
      cases hok : ok a
      · refine ⟨?_, ?_⟩
        · simp only [List.map_cons, hok, createClient_false, List.filterMap_cons,
            List.filter_cons, Bool.false_eq_true, if_false, ih1]
        · simp only [List.map_cons, hok, createClient_false, List.flatten_cons,
            List.length_append, List.filter_cons, Bool.false_eq_true, if_false,
            List.length_cons, ih2, List.length_nil]
          omega
      · refine ⟨?_, ?_⟩
        · simp only [List.map_cons, hok, createClient_true, List.filterMap_cons,
            List.filter_cons, if_true, List.length_cons, ih1]
        · simp only [List.map_cons, hok, createClient_true, List.flatten_cons,
            List.length_append, List.filter_cons, if_true, List.length_cons,
            ih2, List.length_nil]
          omega

/-- C3 counterexample: with `min = 2` and a backing connect that always
fails, the warm-up completes as a total computation (no rejection reaches the
constructor, which invoked it as `void ...` anyway): the result is a pool
with zero clients — fewer than `min` — and two `error` events, refuting
"failure during this phase propagates as a fatal startup error". -/
theorem C3_init_silent_failure :
    (PrismaPool.initMinConnections ⟨2, 10, 30000, 5000, 60000⟩ (fun _ => false)
        0).1.clients.length = 0 ∧
    (PrismaPool.initMinConnections ⟨2, 10, 30000, 5000, 60000⟩ (fun _ => false) 0).2 =
      [.errorEvent "createClient", .errorEvent "createClient"] := by
  decide

/-- C3 amended: construction starts the warm-up without awaiting it, and each
failed initial connect is caught inside `createClient`, emits an `error`
event, and is skipped, so initialization always completes without
propagating an error; the pool ends with one idle client per successful
connect — possibly fewer than `min`. -/
theorem C3_init_best_effort (o : PrismaPool.PoolOptions) (connectOk : Nat → Bool)
    (now : Nat) :
    (PrismaPool.initMinConnections o connectOk now).1.clients.length =
      ((List.range o.min).filter connectOk).length ∧
    (PrismaPool.initMinConnections o connectOk now).1.idleClients =
      (PrismaPool.initMinConnections o connectOk now).1.clients.map
        PrismaPool.ClientInfo.id ∧
    (PrismaPool.initMinConnections o connectOk now).1.activeClients = [] ∧
    (PrismaPool.initMinConnections o connectOk now).2.length =
      o.min - ((List.range o.min).filter connectOk).length := by
  have hcl : (PrismaPool.initMinConnections o connectOk now).1.clients =
      ((List.range o.min).map
        (fun i => PrismaPool.createClient now (connectOk i) i)).filterMap Prod.fst := rfl
  have hev : (PrismaPool.initMinConnections o connectOk now).2 =
      (((List.range o.min).map
        (fun i => PrismaPool.createClient now (connectOk i) i)).map Prod.snd).flatten := rfl
  refine ⟨?_, rfl, rfl, ?_⟩
  · rw [hcl]
    have h := (initCreate_facts now connectOk (List.range o.min)).1
    rw [h]
  · rw [hev]
    have h := (initCreate_facts now connectOk (List.range o.min)).2
    rw [h, List.length_range]

/-- C6: FIFO hand-off on `release`.  For a release of an active client:
with a non-empty waiter queue the client goes to the front (oldest) waiter
and stays in the active set while the idle set is untouched; with an empty
queue it leaves the active set and joins the idle set.  Moreover a saturated
`acquire` appends its waiter at the back of the queue, so waiters are served
strictly in arrival order. -/
theorem C6_release_fifo_handoff (now id : Nat) (s : PrismaPool.PoolState)
    (hnd : s.activeClients.Nodup) (h : id ∈ s.activeClients) :
    (∀ w ws, s.waitingQueue = w :: ws →
      (PrismaPool.release now id s).2 = some w.wid ∧
      id ∈ (PrismaPool.release now id s).1.activeClients ∧
      (PrismaPool.release now id s).1.idleClients = s.idleClients ∧
      (PrismaPool.release now id s).1.waitingQueue = ws) ∧
    (s.waitingQueue = [] →
      (PrismaPool.release now id s).2 = none ∧
      id ∉ (PrismaPool.release now id s).1.activeClients ∧
      id ∈ (PrismaPool.release now id s).1.idleClients) ∧
    (∀ (o : PrismaPool.PoolOptions) (now2 : Nat) (ok : Bool)
        (s2 : PrismaPool.PoolState),
      s2.idleClients = [] → ¬ s2.clients.length < o.max →
      (PrismaPool.acquire o now2 ok s2).1.waitingQueue =
        s2.waitingQueue ++ [{ wid := s2.nextWid, timestamp := now2 }] ∧
      (PrismaPool.acquire o now2 ok s2).2 = .enqueued s2.nextWid) := by
  refine ⟨?_, ?_, ?_⟩
  · intro w ws hq
    unfold PrismaPool.release
    rw [if_pos h, hq]
    exact ⟨rfl, (PrismaPool.mem_addToSet _ _ _).mpr (Or.inr rfl), rfl, rfl⟩
  · intro hq
    unfold PrismaPool.release
    rw [if_pos h, hq]
    refine ⟨rfl, ?_, (PrismaPool.mem_addToSet _ _ _).mpr (Or.inr rfl)⟩
    intro hmem
    exact ((hnd.mem_erase_iff).mp hmem).1 rfl
  · intro o now2 ok s2 hidle hlen
    unfold PrismaPool.acquire
    rw [hidle]
    rw [if_neg hlen]
    exact ⟨rfl, rfl⟩

/-- C6 witness: releasing the single active client `1` at time 5 with waiter
`7` queued hands it to that waiter, keeps it active and leaves the idle set
alone; and a saturated acquire enqueues at the back. -/
theorem C6_release_fifo_handoff_witness :
    (∀ w ws,
      (⟨[⟨1, 0, .some 0⟩], [1], [], [⟨7, 0⟩], 2, 8, 0⟩ :
        PrismaPool.PoolState).waitingQueue = w :: ws →
      (PrismaPool.release 5 1
        ⟨[⟨1, 0, .some 0⟩], [1], [], [⟨7, 0⟩], 2, 8, 0⟩).2 = some w.wid ∧
      1 ∈ (PrismaPool.release 5 1
        ⟨[⟨1, 0, .some 0⟩], [1], [], [⟨7, 0⟩], 2, 8, 0⟩).1.activeClients ∧
      (PrismaPool.release 5 1
        ⟨[⟨1, 0, .some 0⟩], [1], [], [⟨7, 0⟩], 2, 8, 0⟩).1.idleClients =
        (⟨[⟨1, 0, .some 0⟩], [1], [], [⟨7, 0⟩], 2, 8, 0⟩ :
          PrismaPool.PoolState).idleClients ∧
      (PrismaPool.release 5 1
        ⟨[⟨1, 0, .some 0⟩], [1], [], [⟨7, 0⟩], 2, 8, 0⟩).1.waitingQueue = ws) ∧
    ((⟨[⟨1, 0, .some 0⟩], [1], [], [⟨7, 0⟩], 2, 8, 0⟩ :
        PrismaPool.PoolState).waitingQueue = [] →
      (PrismaPool.release 5 1
        ⟨[⟨1, 0, .some 0⟩], [1], [], [⟨7, 0⟩], 2, 8, 0⟩).2 = none ∧
      1 ∉ (PrismaPool.release 5 1
        ⟨[⟨1, 0, .some 0⟩], [1], [], [⟨7, 0⟩], 2, 8, 0⟩).1.activeClients ∧
      1 ∈ (PrismaPool.release 5 1
        ⟨[⟨1, 0, .some 0⟩], [1], [], [⟨7, 0⟩], 2, 8, 0⟩).1.idleClients) ∧
    (∀ (o : PrismaPool.PoolOptions) (now2 : Nat) (ok : Bool)
        (s2 : PrismaPool.PoolState),
      s2.idleClients = [] → ¬ s2.clients.length < o.max →
      (PrismaPool.acquire o now2 ok s2).1.waitingQueue =
        s2.waitingQueue ++ [{ wid := s2.nextWid, timestamp := now2 }] ∧
      (PrismaPool.acquire o now2 ok s2).2 = .enqueued s2.nextWid) :=
  C6_release_fifo_handoff 5 1 ⟨[⟨1, 0, .some 0⟩], [1], [], [⟨7, 0⟩], 2, 8, 0⟩
    (by decide) (by decide)
namespace QueryCache

theorem retryGo_allFail {E V : Type} (op : Nat → Except E V) (e : Nat → E)
    (hop : ∀ k, op k = .error (e k)) (n d : Nat) :
    ∀ a, a < n → retryGo op n d a =
      (.fetchErr (e (n - 1)), n - a,
        (List.range' (a + 1) (n - 1 - a)).map (fun k => d * k)) := by
  suffices H : ∀ m a, n - a = m → a < n → retryGo op n d a =
      (.fetchErr (e (n - 1)), n - a,
        (List.range' (a + 1) (n - 1 - a)).map (fun k => d * k)) by
    exact fun a ha => H (n - a) a rfl ha
  intro m
  induction m with
  | zero =>
      intro a hm ha
      omega
  | succ m ih =>
      intro a hm ha
      unfold retryGo
      rw [dif_pos ha]
      simp only [hop]
      by_cases hE : a + 1 = n
      · rw [if_pos hE]
        have h3 : n - 1 - a = 0 := by omega
        have h1 : n - 1 = a := by omega
        have h2 : n - a = 1 := by omega
        rw [h3, h1, h2]
        rfl
      · rw [if_neg hE]
        have hrec := ih (a + 1) (by omega) (by omega)
        simp only [hrec]
        have hlen : n - 1 - a = (n - 1 - (a + 1)) + 1 := by omega
        have hcnt : n - (a + 1) + 1 = n - a := by omega
        rw [hlen, List.range'_succ, List.map_cons, hcnt]

theorem retryGo_firstOk {E V : Type} (op : Nat → Except E V) (w : V)
    (hop : op 0 = .ok w) (n d : Nat) (hn : 0 < n) :
    retryGo op n d 0 = (.ok w, 1, []) := by
  unfold retryGo
  rw [dif_pos hn]
  simp only [hop]

theorem find?_lruSet {V : Type} (now : Nat) (mem : List (String × LEntry V))
    (key : String) (v : V) (ttl : Nat) :
    (lruSet now mem key v ttl).find? (fun x => x.1 = key) =
      some (key, ⟨v, now, ttl⟩) := by
  induction mem with
  | nil =>
      simp [lruSet, List.find?_cons_of_pos]
  | cons x xs ih =>
      by_cases hx : x.1 = key
      · simp only [lruSet, if_pos hx]
        exact List.find?_cons_of_pos _ (by simp)
      · simp only [lruSet, if_neg hx]
        rw [List.find?_cons_of_neg _ (by simpa using hx)]
        exact ih

/-- C7: retry exhaustion at `get`.  For a key absent from the memory cache,
no persistence, and a fetcher that throws on every invocation, a `get` with
`maxRetries = n ≥ 1` and `retryDelay = d` invokes the fetcher exactly `n`
times, sleeps the linear backoff `d·1, d·2, …, d·(n-1)` before the
re-attempts, counts one miss, rethrows the error object of the last
invocation verbatim, and emits one `error` event. -/
theorem C7_retry_exhaustion {E V : Type} (o : QCOptions)
    (size : String → V → Nat) (now : Nat) (key : String) (ttlOpt : Option Nat)
    (e : Nat → E) (n d : Nat) (s : QCState V)
    (hn : 1 ≤ n)
    (hmem : s.mem.find? (fun x => x.1 = key) = none)
    (hper : o.persistence = none) :
    qcGet o size now key ttlOpt (fun k => (.error (e k) : Except E V)) ⟨n, d⟩ s =
      ⟨{ s with misses := s.misses + 1 }, .fetchErr (e (n - 1)), n,
        (List.range' 1 (n - 1)).map (fun k => d * k), [.getError key]⟩ := by
  have hl : lruGet now s.mem key = (none, s.mem) := by
    unfold lruGet
    rw [hmem]
  have hro : retryOperation (fun k => (.error (e k) : Except E V)) ⟨n, d⟩ =
      (.fetchErr (e (n - 1)), n,
        (List.range' 1 (n - 1)).map (fun k => d * k)) := by
    have h := retryGo_allFail (fun k => (.error (e k) : Except E V)) e
      (fun k => rfl) n d 0 (by omega)
    simpa [retryOperation] using h
  unfold qcGet
  simp only [hl, hper]
  unfold qcMiss
  simp only [hro]

/-- C7 witness: three always-failing attempts with `d = 100` produce calls
`3`, delays `[100, 200]`, and the third error. -/
theorem C7_retry_exhaustion_witness :
    qcGet (E := Nat) (V := Nat) ⟨1000, none⟩ (fun _ _ => 0) 0 "k" none
        (fun k => .error k) ⟨3, 100⟩ ⟨[], [], 0, 0⟩ =
      ⟨⟨[], [], 0, 1⟩, .fetchErr 2, 3, [100, 200], [.getError "k"]⟩ := by
  have h := C7_retry_exhaustion (E := Nat) (V := Nat) ⟨1000, none⟩
    (fun _ _ => 0) 0 "k" none (fun k => k) 3 100 ⟨[], [], 0, 0⟩
    (by decide) (by decide) (by decide)
  simpa using h

/-- C8 counterexample: with `updateAgeOnGet: true` (set unconditionally by
the `QueryCache` constructor) a hit resets the entry's age, so after
`set k (ttl := 10)` at time 0 and an intervening `get` hit at time 5, a
`get` at time 12 ≥ 0 + 10 still HITS (value returned from memory, fetcher
not invoked, no miss counted) — refuting the claim for executions with
intervening gets before expiry. -/
theorem C8_ttl_refreshed_by_get :
    0 + 10 ≤ 12 ∧
    (qcGet (E := Unit) ⟨1000, none⟩ (fun _ _ => 0) 12 "k" none (fun _ => .ok 99)
        ⟨3, 100⟩
        (qcGet (E := Unit) ⟨1000, none⟩ (fun _ _ => 0) 5 "k" none
          (fun _ => .ok 99) ⟨3, 100⟩
          (qcSet ⟨1000, none⟩ (fun _ _ => 0) 0 "k" 42 (some 10)
            ⟨[], [], 0, 0⟩).1).state).outcome = .ok 42 ∧
    (qcGet (E := Unit) ⟨1000, none⟩ (fun _ _ => 0) 12 "k" none (fun _ => .ok 99)
        ⟨3, 100⟩
        (qcGet (E := Unit) ⟨1000, none⟩ (fun _ _ => 0) 5 "k" none
          (fun _ => .ok 99) ⟨3, 100⟩
          (qcSet ⟨1000, none⟩ (fun _ _ => 0) 0 "k" 42 (some 10)
            ⟨[], [], 0, 0⟩).1).state).fetchCalls = 0 ∧
    (qcGet (E := Unit) ⟨1000, none⟩ (fun _ _ => 0) 12 "k" none (fun _ => .ok 99)
        ⟨3, 100⟩
        (qcGet (E := Unit) ⟨1000, none⟩ (fun _ _ => 0) 5 "k" none
          (fun _ => .ok 99) ⟨3, 100⟩
          (qcSet ⟨1000, none⟩ (fun _ _ => 0) 0 "k" 42 (some 10)
            ⟨[], [], 0, 0⟩).1).state).state.misses = 0 := by
  decide

/-- C8 amended: TTL expiry relative to the last write or read of the key.
When the memory entry for the key was stamped at `t0` with `ttl = T` and the
key is not touched in between, any `get` at time `t ≥ t0 + T` treats it as
absent: the stale entry is dropped, a miss is counted, and the fetcher is
invoked (here once, succeeding with `w`). -/
theorem C8_ttl_expiry (o : QCOptions) {V : Type} [DecidableEq V]
    (size : String → V → Nat) (key : String) (v w : V) (t0 T t : Nat)
    (s : QCState V) (fetch : Nat → Except Unit V) (n d : Nat)
    (hper : o.persistence = none)
    (hfind : s.mem.find? (fun x => x.1 = key) = some (key, ⟨v, t0, T⟩))
    (ht : t0 + T ≤ t)
    (hn : 0 < n)
    (hfetch : fetch 0 = .ok w) :
    (qcGet o size t key none fetch ⟨n, d⟩ s).outcome = .ok w ∧
    (qcGet o size t key none fetch ⟨n, d⟩ s).fetchCalls = 1 ∧
    (qcGet o size t key none fetch ⟨n, d⟩ s).state.misses = s.misses + 1 ∧
    (qcGet o size t key none fetch ⟨n, d⟩ s).state.hits = s.hits := by
  have hl : lruGet t s.mem key = (none, s.mem.filter (fun x => x.1 ≠ key)) := by
    unfold lruGet
    simp only [hfind]
    rw [if_pos ht]
  have hro : retryOperation fetch ⟨n, d⟩ = (.ok w, 1, []) :=
    retryGo_firstOk fetch w hfetch n d hn
  unfold qcGet
  simp only [hl, hper]
  unfold qcMiss
  simp only [hro]
  unfold qcSet
  simp only [hper]
  exact ⟨trivial, trivial, trivial, trivial⟩

/-- C8 amended witness: entry stamped at 0 with TTL 10 and never touched; a
get at 12 misses and fetches 77. -/
theorem C8_ttl_expiry_witness :
    (qcGet (E := Unit) ⟨1000, none⟩ (fun _ _ => 0) 12 "k" none (fun _ => .ok 77)
        ⟨3, 100⟩ ⟨[("k", ⟨42, 0, 10⟩)], [], 0, 0⟩).outcome = .ok 77 ∧
    (qcGet (E := Unit) ⟨1000, none⟩ (fun _ _ => 0) 12 "k" none (fun _ => .ok 77)
        ⟨3, 100⟩ ⟨[("k", ⟨42, 0, 10⟩)], [], 0, 0⟩).fetchCalls = 1 ∧
    (qcGet (E := Unit) ⟨1000, none⟩ (fun _ _ => 0) 12 "k" none (fun _ => .ok 77)
        ⟨3, 100⟩ ⟨[("k", ⟨42, 0, 10⟩)], [], 0, 0⟩).state.misses = 0 + 1 ∧
    (qcGet (E := Unit) ⟨1000, none⟩ (fun _ _ => 0) 12 "k" none (fun _ => .ok 77)
        ⟨3, 100⟩ ⟨[("k", ⟨42, 0, 10⟩)], [], 0, 0⟩).state.hits = 0 :=
  C8_ttl_expiry ⟨1000, none⟩ (fun _ _ => 0) "k" 42 77 0 10 12
    ⟨[("k", ⟨42, 0, 10⟩)], [], 0, 0⟩ (fun _ => .ok 77) 3 100
    (by decide) (by decide) (by decide) (by decide) rfl

/-- C9: best-effort persistence on `set`.  The value is written to the
memory cache unconditionally (the key maps to the fresh entry afterwards);
and when persistence is configured and the serialized entry exceeds the
per-entry cap, `save` rejects with `EntryTooLarge`, `set` emits one
`error`/persist event instead of throwing (the embedding is a total
function), the disk is unchanged, and the in-memory entry still stands. -/
theorem C9_set_best_effort {V : Type} (o : QCOptions)
    (po : Persistence.PMOptions) (size : String → V → Nat) (now : Nat)
    (key : String) (v : V) (ttlOpt : Option Nat) (s : QCState V)
    (hper : o.persistence = some po)
    (hbig : size key v > po.maxFileSize) :
    (qcSet o size now key v ttlOpt s).1.mem.find? (fun x => x.1 = key) =
      some (key, ⟨v, now, ttlOpt.getD o.ttl⟩) ∧
    (qcSet o size now key v ttlOpt s).1.disk = s.disk ∧
    (qcSet o size now key v ttlOpt s).2 = [.persistError key] := by
  have hsave : Persistence.save po size now key v s.disk =
      .error "EntryTooLarge" := by
    unfold Persistence.save
    rw [if_pos hbig]
  unfold qcSet
  simp only [hper, hsave]
  exact ⟨find?_lruSet now s.mem key v (ttlOpt.getD o.ttl), trivial, trivial⟩

/-- C9 witness: an entry of serialized size 11 against a 10-byte cap is
rejected by persistence while the memory write stands and one event is
emitted. -/
theorem C9_set_best_effort_witness :
    (qcSet (V := Nat) ⟨1000, some ⟨"d", 10, 100⟩⟩ (fun _ _ => 11) 7 "k" 42 none
        ⟨[], [], 0, 0⟩).1.mem.find? (fun x => x.1 = "k") =
      some ("k", ⟨42, 7, 1000⟩) ∧
    (qcSet (V := Nat) ⟨1000, some ⟨"d", 10, 100⟩⟩ (fun _ _ => 11) 7 "k" 42 none
        ⟨[], [], 0, 0⟩).1.disk = (⟨[], [], 0, 0⟩ : QCState Nat).disk ∧
    (qcSet (V := Nat) ⟨1000, some ⟨"d", 10, 100⟩⟩ (fun _ _ => 11) 7 "k" 42 none
        ⟨[], [], 0, 0⟩).2 = [.persistError "k"] :=
  C9_set_best_effort ⟨1000, some ⟨"d", 10, 100⟩⟩ ⟨"d", 10, 100⟩ (fun _ _ => 11)
    7 "k" 42 none ⟨[], [], 0, 0⟩ rfl (by decide)


end QueryCache


/-- C10: the key-to-filename encoding is not injective.  The distinct keys
`"??>"` and `"???"` base64-encode to `"Pz8+"` and `"Pz8/"`, which the
`replace(/[/+=]/g, '_')` step both collapse to `"Pz8_"`, so they resolve to
the same file path; saving 1 under `"??>"` and then 2 under `"???"`
overwrites the first file, and a subsequent `load "??>"` returns 2. -/
theorem C10_key_encoding_collision :
    ("??>" : String) ≠ "???" ∧
    Persistence.getFilePath "cache" "??>" = Persistence.getFilePath "cache" "???" ∧
    (((Persistence.save ⟨"cache", 100, 10⟩ (fun _ _ => 0) 0 "??>" (1 : Nat) []).bind
        (fun fs1 =>
          Persistence.save ⟨"cache", 100, 10⟩ (fun _ _ => 0) 1 "???" 2 fs1)).toOption.map
      (fun fs2 => (Persistence.load ⟨"cache", 100, 10⟩ fs2 "??>",
                   Persistence.load ⟨"cache", 100, 10⟩ fs2 "???"))) =
      some (some 2, some 2) := by
  decide